import Mathlib

/-!
Shallow embedding of the tic-tac-toe minimax player (`src/tictactoe.py`).

Cells hold `none` (the source's `EMPTY`, i.e. Python `None`) or a player's
mark (`X` / `O`).  A board is the 3×3 grid of cells, addressed by
(row, column) with both indices in `Fin 3`.  Python's mutable list-of-lists
is modelled as an immutable value; `copy.deepcopy` followed by a cell
assignment becomes construction of a new value with one field changed.

The mutually recursive search functions are embedded with an explicit fuel
argument that strictly decreases on every recursive call; every call made
by the source supplies at least as much fuel as there are empty cells, and
the fuel-exhaustion branches are proved unreachable below, so the fuelled
functions agree with the source's unbounded recursion.
-/

namespace TicTacToe

/-- The two marks, the source's string constants `X = "X"` and `O = "O"`. -/
inductive Player where
  | X : Player
  | O : Player
deriving DecidableEq, Fintype

/-- A cell holds `none` (`EMPTY`) or a mark. -/
abbrev Cell := Option Player

/-- The 3×3 grid, row-major: `cIJ` is the cell at row `I`, column `J`
(Python `board[I][J]`). -/
structure Board where
  c00 : Cell
  c01 : Cell
  c02 : Cell
  c10 : Cell
  c11 : Cell
  c12 : Cell
  c20 : Cell
  c21 : Cell
  c22 : Cell
deriving DecidableEq

/-- A move `(i, j)`: row and column, both in `{0, 1, 2}`. -/
abbrev Action := Fin 3 × Fin 3

/-- Cell lookup `board[i][j]`. -/
def Board.get (b : Board) (i j : Fin 3) : Cell :=
  match i.val, j.val with
  | 0, 0 => b.c00
  | 0, 1 => b.c01
  | 0, 2 => b.c02
  | 1, 0 => b.c10
  | 1, 1 => b.c11
  | 1, 2 => b.c12
  | 2, 0 => b.c20
  | 2, 1 => b.c21
  | _, _ => b.c22

/-- Cell assignment `board[i][j] = v` on a fresh copy of the board. -/
def Board.set (b : Board) (i j : Fin 3) (v : Cell) : Board :=
  match i.val, j.val with
  | 0, 0 => { b with c00 := v }
  | 0, 1 => { b with c01 := v }
  | 0, 2 => { b with c02 := v }
  | 1, 0 => { b with c10 := v }
  | 1, 1 => { b with c11 := v }
  | 1, 2 => { b with c12 := v }
  | 2, 0 => { b with c20 := v }
  | 2, 1 => { b with c21 := v }
  | _, _ => { b with c22 := v }

/-- Row `i` of the board as the list Python iterates over. -/
def Board.row (b : Board) (i : Fin 3) : List Cell :=
  [b.get i 0, b.get i 1, b.get i 2]

/-- `initial_state()`: the all-empty board. -/
def initial_state : Board :=
  ⟨none, none, none, none, none, none, none, none, none⟩

/-- `sum(row.count(X) for row in board)`, the count of `X` marks. -/
def x_moves (b : Board) : Nat :=
  (b.row 0).count (some .X) + (b.row 1).count (some .X) + (b.row 2).count (some .X)

/-- `sum(row.count(O) for row in board)`, the count of `O` marks. -/
def o_moves (b : Board) : Nat :=
  (b.row 0).count (some .O) + (b.row 1).count (some .O) + (b.row 2).count (some .O)

/-- `player(board)`: `X` when the mark counts are equal, else `O`. -/
def player (b : Board) : Player :=
  if x_moves b = o_moves b then .X else .O

/-- The row-major traversal order of the double loop in `actions`. -/
def allSquares : List Action :=
  [(0, 0), (0, 1), (0, 2), (1, 0), (1, 1), (1, 2), (2, 0), (2, 1), (2, 2)]

/-- `actions(board)`: every `(row, column)` whose cell is empty.  The
source accumulates these into a Python `set` by a row-major double loop;
the set is modelled as the duplicate-free row-major list. -/
def actions (b : Board) : List Action :=
  allSquares.filter (fun a => decide (b.get a.1 a.2 = none))

/-- `result(board, action)`: raises `Exception("Invalid action")` when the
target cell is occupied, otherwise deep-copies the board and writes the
current player's mark at the target cell. -/
def result (b : Board) (a : Action) : Except String Board :=
  if b.get a.1 a.2 ≠ none then .error "Invalid action"
  else .ok (b.set a.1 a.2 (some (player b)))

/-- One iteration of the loop in `check_row_wins`: the row-`i` candidate
`board[i][0]`, returned when it is non-empty and equals the rest of row `i`. -/
def row_candidate (b : Board) (i : Fin 3) : Option Player :=
  let candidate := b.get i 0
  if candidate ≠ none ∧ candidate = b.get i 1 ∧ candidate = b.get i 2 then
    candidate
  else none

/-- `check_row_wins(board)`: first row whose three cells hold the same
non-empty mark, else `None`. -/
def check_row_wins (b : Board) : Option Player :=
  match row_candidate b 0 with
  | some w => some w
  | none =>
    match row_candidate b 1 with
    | some w => some w
    | none => row_candidate b 2

/-- One iteration of the loop in `check_column_wins`. -/
def column_candidate (b : Board) (j : Fin 3) : Option Player :=
  let candidate := b.get 0 j
  if candidate ≠ none ∧ candidate = b.get 1 j ∧ candidate = b.get 2 j then
    candidate
  else none

/-- `check_column_wins(board)`. -/
def check_column_wins (b : Board) : Option Player :=
  match column_candidate b 0 with
  | some w => some w
  | none =>
    match column_candidate b 1 with
    | some w => some w
    | none => column_candidate b 2

/-- `check_diagonal_wins(board)`, with Python's operator precedence kept
exactly: `and` binds tighter than `or`, so the `candidate is not None`
guard covers only the main-diagonal disjunct.  When the guard-free
anti-diagonal disjunct fires with an empty centre, the returned
`candidate` is itself `None`, which the caller reads as "no winner". -/
def check_diagonal_wins (b : Board) : Option Player :=
  let candidate := b.get 1 1
  if (candidate ≠ none ∧ candidate = b.get 0 0 ∧ candidate = b.get 2 2) ∨
      (candidate = b.get 0 2 ∧ candidate = b.get 2 0) then
    candidate
  else none

/-- `winner(board)`: rows first, then columns, then diagonals; the first
non-`None` check wins. -/
def winner (b : Board) : Option Player :=
  match check_row_wins b with
  | some w => some w
  | none =>
    match check_column_wins b with
    | some w => some w
    | none => check_diagonal_wins b

/-- `full_board(board)`: every cell is occupied. -/
def full_board (b : Board) : Bool :=
  allSquares.all (fun a => decide (b.get a.1 a.2 ≠ none))

/-- `terminal(board)`: someone has won, or the board is full. -/
def terminal (b : Board) : Bool :=
  if winner b ≠ none then true else full_board b

/-- `utility(board)`: `1` when the winner is `X`, `-1` when it is `O`,
`0` otherwise.  The source never checks terminality here. -/
def utility (b : Board) : Int :=
  match winner b with
  | some .X => 1
  | some .O => -1
  | none => 0

/-- The number of empty cells, the measure the search recursion shrinks. -/
def empty_count (b : Board) : Nat :=
  (b.row 0).count none + (b.row 1).count none + (b.row 2).count none

/-- The board `next_board = result(board, action)` that the search loops
bind: inside `max_value`/`min_value` the action always comes from
`actions(board)`, so the error branch of `result` is unreachable there
(proved in `result_ok_of_mem_actions`); it is given the untouched board as
a dummy value. -/
def next_board (b : Board) (a : Action) : Board :=
  match result b a with
  | .ok nb => nb
  | .error _ => b

/-- One iteration of the loop body of `max_value`: an accumulator of
`none` stands for the initial `best_score = -math.inf, best_action = None`
pair, against which any integer score compares as strictly greater. -/
def maxStep (f : Action → Int) (best : Option (Int × Action)) (a : Action) :
    Option (Int × Action) :=
  let s := f a
  match best with
  | none => some (s, a)
  | some (bs, ba) => if s > bs then some (s, a) else some (bs, ba)

/-- One iteration of the loop body of `min_value` (`best_score = math.inf`
initially, any score is strictly smaller). -/
def minStep (f : Action → Int) (best : Option (Int × Action)) (a : Action) :
    Option (Int × Action) :=
  let s := f a
  match best with
  | none => some (s, a)
  | some (bs, ba) => if s < bs then some (s, a) else some (bs, ba)

mutual

/-- `max_value(board)` with an explicit recursion-depth budget.  The two
`(0, none)` fallbacks are unreachable whenever `fuel` is at least the
number of empty cells: a non-terminal board has an empty cell, so the
action list is non-empty and the fold returns `some`, and the fuel never
runs out because every recursive call removes one empty cell. -/
def max_value_aux : Nat → Board → Int × Option Action
  | fuel, b =>
    if terminal b then (utility b, none)
    else
      match fuel with
      | 0 => (0, none)
      | f + 1 =>
        match (actions b).foldl
            (maxStep (fun a => (min_value_aux f (next_board b a)).1)) none with
        | some (s, a) => (s, some a)
        | none => (0, none)

/-- `min_value(board)` with an explicit recursion-depth budget. -/
def min_value_aux : Nat → Board → Int × Option Action
  | fuel, b =>
    if terminal b then (utility b, none)
    else
      match fuel with
      | 0 => (0, none)
      | f + 1 =>
        match (actions b).foldl
            (minStep (fun a => (max_value_aux f (next_board b a)).1)) none with
        | some (s, a) => (s, some a)
        | none => (0, none)

end

/-- `max_value(board)`: the budget `empty_count b` always suffices
(`max_value_aux_fuel_irrelevant` shows any larger budget gives the same
answer, so this is the source's unbounded recursion). -/
def max_value (b : Board) : Int × Option Action :=
  max_value_aux (empty_count b) b

/-- `min_value(board)`. -/
def min_value (b : Board) : Int × Option Action :=
  min_value_aux (empty_count b) b

/-- `minimax(board)`: `None` on a terminal board, otherwise the best
action for the player to move. -/
def minimax (b : Board) : Option Action :=
  if terminal b then none
  else if player b = .X then (max_value b).2
  else (min_value b).2

/-!
Specification-side definitions, written from the spec's words rather than
from the source, for stating the minimax-optimality and winner claims.
-/

mutual

/-- Modelled from the spec: the utility the maximizing player `A`/`X` can
guarantee when moving now, assuming the minimizer replies optimally — the
utility itself when the board is terminal, otherwise the maximum over the
legal moves of the value the minimizer can then force.  Fuelled like the
search; `empty_count b` fuel always suffices. -/
def gvalMax_aux : Nat → Board → Int
  | fuel, b =>
    if terminal b then utility b
    else
      match fuel with
      | 0 => 0
      | f + 1 =>
        match (actions b).map (fun a => gvalMin_aux f (next_board b a)) with
        | [] => 0
        | s :: rest => rest.foldl max s

/-- Modelled from the spec: the utility the minimizing player `B`/`O` can
force when moving now, assuming the maximizer replies optimally. -/
def gvalMin_aux : Nat → Board → Int
  | fuel, b =>
    if terminal b then utility b
    else
      match fuel with
      | 0 => 0
      | f + 1 =>
        match (actions b).map (fun a => gvalMax_aux f (next_board b a)) with
        | [] => 0
        | s :: rest => rest.foldl min s

end

/-- The guaranteed utility with the maximizer to move. -/
def gvalMax (b : Board) : Int := gvalMax_aux (empty_count b) b

/-- The guaranteed utility with the minimizer to move. -/
def gvalMin (b : Board) : Int := gvalMin_aux (empty_count b) b

/-- Modelled from the spec (§3): the count invariant of a well-formed
board — `A` moves first, so its count equals or exceeds `B`'s by one. -/
def Valid (b : Board) : Prop :=
  x_moves b = o_moves b ∨ x_moves b = o_moves b + 1

/-- Modelled from the spec: mark `p` occupies a complete line — a full
row, a full column, or one of the two diagonals. -/
def hasLine (b : Board) (p : Player) : Prop :=
  (∃ i : Fin 3, b.get i 0 = some p ∧ b.get i 1 = some p ∧ b.get i 2 = some p) ∨
  (∃ j : Fin 3, b.get 0 j = some p ∧ b.get 1 j = some p ∧ b.get 2 j = some p) ∨
  (b.get 0 0 = some p ∧ b.get 1 1 = some p ∧ b.get 2 2 = some p) ∨
  (b.get 0 2 = some p ∧ b.get 1 1 = some p ∧ b.get 2 0 = some p)

instance (b : Board) (p : Player) : Decidable (hasLine b p) :=
  inferInstanceAs (Decidable (_ ∨ _ ∨ _ ∨ _))

/-!
Fast twins.  Kernel reduction of the `Decidable`-instance chains in the
source embedding is slow, so the bounded game searches below, which are
proof devices and not part of the source model, run on pattern-matching
twins of the rules functions.  Each twin is proved extensionally equal to
its source counterpart, and every theorem about a claim speaks only about
the source embedding.
-/

/-- Twin of decidable cell equality. -/
def cellEq : Cell → Cell → Bool
  | none, none => true
  | some Player.X, some Player.X => true
  | some Player.O, some Player.O => true
  | _, _ => false

/-- Twin of one `check_row_wins` / `check_column_wins` loop iteration. -/
def sameMark : Cell → Cell → Cell → Option Player
  | some Player.X, some Player.X, some Player.X => some Player.X
  | some Player.O, some Player.O, some Player.O => some Player.O
  | _, _, _ => none

/-- Twin of `check_diagonal_wins`, same asymmetric condition. -/
def twDiag (c tl br tr bl : Cell) : Option Player :=
  if ((!cellEq c none) && cellEq c tl && cellEq c br) ||
      (cellEq c tr && cellEq c bl) then c else none

/-- Twin of `winner`: the same cascade of eight candidate checks. -/
def twWinner (b : Board) : Option Player :=
  match sameMark b.c00 b.c01 b.c02 with
  | some w => some w
  | none =>
  match sameMark b.c10 b.c11 b.c12 with
  | some w => some w
  | none =>
  match sameMark b.c20 b.c21 b.c22 with
  | some w => some w
  | none =>
  match sameMark b.c00 b.c10 b.c20 with
  | some w => some w
  | none =>
  match sameMark b.c01 b.c11 b.c21 with
  | some w => some w
  | none =>
  match sameMark b.c02 b.c12 b.c22 with
  | some w => some w
  | none => twDiag b.c11 b.c00 b.c22 b.c02 b.c20

/-- Twin of `full_board`. -/
def twFull (b : Board) : Bool :=
  !cellEq b.c00 none && !cellEq b.c01 none && !cellEq b.c02 none &&
  !cellEq b.c10 none && !cellEq b.c11 none && !cellEq b.c12 none &&
  !cellEq b.c20 none && !cellEq b.c21 none && !cellEq b.c22 none

/-- Twin of `terminal`. -/
def twTerminal (b : Board) : Bool :=
  match twWinner b with
  | some _ => true
  | none => twFull b

/-- Indicator of an `X` mark in a cell. -/
def xCount1 : Cell → Nat
  | some Player.X => 1
  | _ => 0

/-- Indicator of an `O` mark in a cell. -/
def oCount1 : Cell → Nat
  | some Player.O => 1
  | _ => 0

/-- Indicator of an empty cell. -/
def eCount1 : Cell → Nat
  | none => 1
  | _ => 0

/-- Twin of `empty_count`. -/
def twECount (b : Board) : Nat :=
  eCount1 b.c00 + eCount1 b.c01 + eCount1 b.c02 +
  eCount1 b.c10 + eCount1 b.c11 + eCount1 b.c12 +
  eCount1 b.c20 + eCount1 b.c21 + eCount1 b.c22

/-- Twin of `x_moves`. -/
def twXMoves (b : Board) : Nat :=
  xCount1 b.c00 + xCount1 b.c01 + xCount1 b.c02 +
  xCount1 b.c10 + xCount1 b.c11 + xCount1 b.c12 +
  xCount1 b.c20 + xCount1 b.c21 + xCount1 b.c22

/-- Twin of `o_moves`. -/
def twOMoves (b : Board) : Nat :=
  oCount1 b.c00 + oCount1 b.c01 + oCount1 b.c02 +
  oCount1 b.c10 + oCount1 b.c11 + oCount1 b.c12 +
  oCount1 b.c20 + oCount1 b.c21 + oCount1 b.c22

/-- Twin of `player`. -/
def twPlayer (b : Board) : Player :=
  if twXMoves b = twOMoves b then .X else .O

/-- `utility(board) ≥ 0`, on the twin winner. -/
def twUtilNonneg (b : Board) : Bool :=
  match twWinner b with
  | some Player.O => false
  | _ => true

/-- `utility(board) ≤ 0`, on the twin winner. -/
def twUtilNonpos (b : Board) : Bool :=
  match twWinner b with
  | some Player.X => false
  | _ => true

/-- The squares in centre-corners-edges order, a search heuristic for the
drawing-strategy checkers below (any order would do). -/
def priority_squares : List Action :=
  [(1, 1), (0, 0), (0, 2), (2, 0), (2, 2), (0, 1), (1, 0), (1, 2), (2, 1)]

/-- The empty squares, tried centre first; same members as `actions`. -/
def twFree (b : Board) : List Action :=
  priority_squares.filter (fun a => cellEq (b.get a.1 a.2) none)

/-- Twin of `next_board` on an empty target cell. -/
def twNext (b : Board) (a : Action) : Board :=
  b.set a.1 a.2 (some (twPlayer b))

/-- Bounded and-or search certifying that the maximizer can guarantee a
non-negative utility: with `maxTurn = true` one good move suffices, with
`maxTurn = false` every reply of the minimizer must stay good.  A proof
device, not source code. -/
def x_draw_aux : Nat → Bool → Board → Bool
  | fuel, maxTurn, b =>
    if twTerminal b then twUtilNonneg b
    else
      match fuel with
      | 0 => false
      | f + 1 =>
        if maxTurn then
          (twFree b).any (fun a => x_draw_aux f false (twNext b a))
        else
          (twFree b).all (fun a => x_draw_aux f true (twNext b a))

/-- Bounded and-or search certifying that the minimizer can guarantee a
non-positive utility (`minTurn = true` when the minimizer moves now).  A
proof device, not source code. -/
def o_draw_aux : Nat → Bool → Board → Bool
  | fuel, minTurn, b =>
    if twTerminal b then twUtilNonpos b
    else
      match fuel with
      | 0 => false
      | f + 1 =>
        if minTurn then
          (twFree b).any (fun a => o_draw_aux f false (twNext b a))
        else
          (twFree b).all (fun a => o_draw_aux f true (twNext b a))

/-- Repeatedly let `minimax` choose a move for whichever player is to move
and apply it, for at most `fuel` rounds (9 rounds fill the board). -/
def play_from : Nat → Board → Board
  | 0, b => b
  | f + 1, b =>
    match minimax b with
    | none => b
    | some a => play_from f (next_board b a)

/-- The boards reachable from the initial board by successful `result`
calls. -/
inductive Reachable : Board → Prop where
  | init : Reachable initial_state
  | step {b : Board} {a : Action} {b' : Board} :
      Reachable b → result b a = .ok b' → Reachable b'

/-- The spec's "one move from winning" scenario board
`[[A,A,Empty],[B,B,Empty],[Empty,Empty,Empty]]`, `A` to move. -/
def nearWinBoard : Board :=
  ⟨some .X, some .X, none, some .O, some .O, none, none, none, none⟩

/-- `nearWinBoard` after `A` takes the winning move `(0, 2)`. -/
def nearWinDone : Board :=
  ⟨some .X, some .X, some .X, some .O, some .O, none, none, none, none⟩

/-- A completed top row for `A`, other cells empty: a terminal board. -/
def rowWinBoard : Board :=
  ⟨some .X, some .X, some .X, none, none, none, none, none, none⟩

/-- A board whose top row is all `A` and middle row all `B` — it violates
the spec's §3 invariant, and both marks own a complete line. -/
def bothLinesBoard : Board :=
  ⟨some .X, some .X, some .X, some .O, some .O, some .O, none, none, none⟩

/-- An in-progress board: a single `A` mark in the centre. -/
def oneMarkBoard : Board :=
  ⟨none, none, none, none, some .X, none, none, none, none⟩

/-- A drawn-but-for-one-cell board, `A` to move at `(2, 2)`. -/
def lastMoveBoard : Board :=
  ⟨some .X, some .O, some .X, some .X, some .O, some .O, some .O, some .X, none⟩

/-!
## Helper lemmas
-/

theorem cellEq_eq (x y : Cell) : cellEq x y = decide (x = y) := by
  revert x y; decide

theorem sameMark_eq (x y z : Cell) :
    sameMark x y z = if x ≠ none ∧ x = y ∧ x = z then x else none := by
  revert x y z; decide

theorem mem_allSquares (a : Action) : a ∈ allSquares := by
  revert a; decide

theorem mem_priority_squares (a : Action) : a ∈ priority_squares := by
  revert a; decide

theorem mem_actions {b : Board} {a : Action} :
    a ∈ actions b ↔ b.get a.1 a.2 = none := by
  simp [actions, List.mem_filter, mem_allSquares]

theorem mem_twFree {b : Board} {a : Action} :
    a ∈ twFree b ↔ b.get a.1 a.2 = none := by
  simp [twFree, List.mem_filter, mem_priority_squares, cellEq_eq]

theorem row_zero (b : Board) : b.row 0 = [b.c00, b.c01, b.c02] := rfl

theorem row_one (b : Board) : b.row 1 = [b.c10, b.c11, b.c12] := rfl

theorem row_two (b : Board) : b.row 2 = [b.c20, b.c21, b.c22] := rfl

theorem count3_x (x y z : Cell) :
    [x, y, z].count (some Player.X) = xCount1 x + xCount1 y + xCount1 z := by
  revert x y z; decide

theorem count3_o (x y z : Cell) :
    [x, y, z].count (some Player.O) = oCount1 x + oCount1 y + oCount1 z := by
  revert x y z; decide

theorem count3_e (x y z : Cell) :
    [x, y, z].count (none : Cell) = eCount1 x + eCount1 y + eCount1 z := by
  revert x y z; decide

theorem x_moves_eq_tw (b : Board) : x_moves b = twXMoves b := by
  rw [x_moves, row_zero, row_one, row_two, count3_x, count3_x, count3_x, twXMoves]; omega

theorem o_moves_eq_tw (b : Board) : o_moves b = twOMoves b := by
  rw [o_moves, row_zero, row_one, row_two, count3_o, count3_o, count3_o, twOMoves]; omega

theorem empty_count_eq_tw (b : Board) : empty_count b = twECount b := by
  rw [empty_count, row_zero, row_one, row_two, count3_e, count3_e, count3_e, twECount]; omega

theorem player_eq_tw (b : Board) : player b = twPlayer b := by
  rw [player, twPlayer, x_moves_eq_tw, o_moves_eq_tw]

theorem finmk_zero (h : (0 : Nat) < 3) : (⟨0, h⟩ : Fin 3) = 0 := rfl

theorem finmk_one (h : (1 : Nat) < 3) : (⟨1, h⟩ : Fin 3) = 1 := rfl

theorem finmk_two (h : (2 : Nat) < 3) : (⟨2, h⟩ : Fin 3) = 2 := rfl

theorem get00 (b : Board) : b.get 0 0 = b.c00 := rfl

theorem get01 (b : Board) : b.get 0 1 = b.c01 := rfl

theorem get02 (b : Board) : b.get 0 2 = b.c02 := rfl

theorem get10 (b : Board) : b.get 1 0 = b.c10 := rfl

theorem get11 (b : Board) : b.get 1 1 = b.c11 := rfl

theorem get12 (b : Board) : b.get 1 2 = b.c12 := rfl

theorem get20 (b : Board) : b.get 2 0 = b.c20 := rfl

theorem get21 (b : Board) : b.get 2 1 = b.c21 := rfl

theorem get22 (b : Board) : b.get 2 2 = b.c22 := rfl

theorem set00 (b : Board) (v : Cell) : b.set 0 0 v = { b with c00 := v } := rfl

theorem set01 (b : Board) (v : Cell) : b.set 0 1 v = { b with c01 := v } := rfl

theorem set02 (b : Board) (v : Cell) : b.set 0 2 v = { b with c02 := v } := rfl

theorem set10 (b : Board) (v : Cell) : b.set 1 0 v = { b with c10 := v } := rfl

theorem set11 (b : Board) (v : Cell) : b.set 1 1 v = { b with c11 := v } := rfl

theorem set12 (b : Board) (v : Cell) : b.set 1 2 v = { b with c12 := v } := rfl

theorem set20 (b : Board) (v : Cell) : b.set 2 0 v = { b with c20 := v } := rfl

theorem set21 (b : Board) (v : Cell) : b.set 2 1 v = { b with c21 := v } := rfl

theorem set22 (b : Board) (v : Cell) : b.set 2 2 v = { b with c22 := v } := rfl

theorem get_set_self (b : Board) (i j : Fin 3) (v : Cell) :
    (b.set i j v).get i j = v := by
  fin_cases i <;> fin_cases j <;> rfl

theorem get_set_ne (b : Board) (i j i' j' : Fin 3) (v : Cell)
    (h : ¬(i' = i ∧ j' = j)) : (b.set i j v).get i' j' = b.get i' j' := by
  fin_cases i <;> fin_cases j <;> fin_cases i' <;> fin_cases j' <;>
    first
      | rfl
      | exact absurd ⟨rfl, rfl⟩ h

theorem result_eq_error {b : Board} {a : Action} (h : b.get a.1 a.2 ≠ none) :
    result b a = .error "Invalid action" := by
  simp [result, h]

theorem result_eq_ok {b : Board} {a : Action} (h : b.get a.1 a.2 = none) :
    result b a = .ok (b.set a.1 a.2 (some (player b))) := by
  simp [result, h]

theorem next_board_eq {b : Board} {a : Action} (h : b.get a.1 a.2 = none) :
    next_board b a = b.set a.1 a.2 (some (player b)) := by
  rw [next_board, result_eq_ok h]

theorem xCount1_some (p : Player) :
    xCount1 (some p) = if p = .X then 1 else 0 := by
  cases p <;> rfl

theorem oCount1_some (p : Player) :
    oCount1 (some p) = if p = .O then 1 else 0 := by
  cases p <;> rfl

theorem tw_set_counts (b : Board) (a : Action) (p : Player)
    (h : b.get a.1 a.2 = none) :
    twXMoves (b.set a.1 a.2 (some p)) = twXMoves b + xCount1 (some p) ∧
    twOMoves (b.set a.1 a.2 (some p)) = twOMoves b + oCount1 (some p) ∧
    twECount (b.set a.1 a.2 (some p)) + 1 = twECount b := by
  have ha := mem_allSquares a
  fin_cases ha <;>
    (simp only [finmk_zero, finmk_one, finmk_two,
       get00, get01, get02, get10, get11, get12, get20, get21, get22,
       set00, set01, set02, set10, set11, set12, set20, set21, set22] at h ⊢;
     simp only [twXMoves, twOMoves, twECount, h];
     simp only [show eCount1 none = 1 from rfl, show xCount1 none = 0 from rfl,
       show oCount1 none = 0 from rfl, show ∀ q : Player, eCount1 (some q) = 0
         from fun q => rfl];
     first
       | omega
       | exact ⟨by omega, by omega, trivial⟩)

theorem terminal_false_iff {b : Board} :
    terminal b = false ↔ winner b = none ∧ full_board b = false := by
  cases hw : winner b <;> simp [terminal, hw]

theorem exists_empty_of_not_full {b : Board} (h : full_board b = false) :
    ∃ a : Action, b.get a.1 a.2 = none := by
  rw [full_board, List.all_eq_false] at h
  obtain ⟨a, -, ha⟩ := h
  exact ⟨a, by simpa using ha⟩

theorem empty_count_pos {b : Board} {a : Action}
    (h : b.get a.1 a.2 = none) : 1 ≤ empty_count b := by
  rw [empty_count_eq_tw]
  obtain ⟨i, j⟩ := a
  fin_cases i <;> fin_cases j <;>
    (simp only [Board.get] at h; simp only [twECount, h,
      show eCount1 none = 1 from rfl]; omega)

theorem actions_ne_nil {b : Board} (h : terminal b = false) :
    actions b ≠ [] := by
  obtain ⟨-, hfull⟩ := terminal_false_iff.mp h
  obtain ⟨a, ha⟩ := exists_empty_of_not_full hfull
  exact List.ne_nil_of_mem (mem_actions.mpr ha)

theorem player_eq_X_iff {b : Board} :
    player b = .X ↔ x_moves b = o_moves b := by
  rw [player]; split_ifs with h <;> simp [h]

theorem player_eq_O_iff {b : Board} :
    player b = .O ↔ x_moves b ≠ o_moves b := by
  rw [player]; split_ifs with h <;> simp [h]

theorem next_counts {b : Board} {a : Action} (h : b.get a.1 a.2 = none) :
    x_moves (next_board b a) =
      x_moves b + (if player b = .X then 1 else 0) ∧
    o_moves (next_board b a) =
      o_moves b + (if player b = .O then 1 else 0) := by
  have hc := tw_set_counts b a (player b) h
  rw [next_board_eq h]
  rw [x_moves_eq_tw, o_moves_eq_tw, x_moves_eq_tw, o_moves_eq_tw,
    xCount1_some, oCount1_some] at *
  exact ⟨hc.1, hc.2.1⟩

theorem valid_next {b : Board} {a : Action} (h : b.get a.1 a.2 = none)
    (hv : Valid b) : Valid (next_board b a) := by
  obtain ⟨h1, h2⟩ := next_counts h
  rw [Valid] at hv ⊢
  by_cases hx : player b = .X
  · have := player_eq_X_iff.mp hx
    have ho : ¬ player b = .O := by rw [hx]; simp
    rw [if_pos hx] at h1; rw [if_neg ho] at h2
    omega
  · have ho : player b = .O := by cases hp : player b <;> simp_all
    have := player_eq_O_iff.mp ho
    rw [if_neg hx] at h1; rw [if_pos ho] at h2
    omega

theorem player_next_of_valid {b : Board} {a : Action}
    (h : b.get a.1 a.2 = none) (hv : Valid b) :
    player (next_board b a) = (if player b = .X then Player.O else Player.X) := by
  obtain ⟨h1, h2⟩ := next_counts h
  by_cases hx : player b = .X
  · have := player_eq_X_iff.mp hx
    have ho : ¬ player b = .O := by rw [hx]; simp
    rw [if_pos hx] at h1 ⊢; rw [if_neg ho] at h2
    exact player_eq_O_iff.mpr (by omega)
  · have ho : player b = .O := by cases hp : player b <;> simp_all
    have ho' := player_eq_O_iff.mp ho
    have hv' : x_moves b = o_moves b + 1 := by
      rcases hv with hh | hh
      · exact absurd hh ho'
      · exact hh
    rw [if_neg hx] at h1 ⊢; rw [if_pos ho] at h2
    exact player_eq_X_iff.mpr (by omega)

theorem empty_count_next {b : Board} {a : Action}
    (h : b.get a.1 a.2 = none) :
    empty_count (next_board b a) + 1 = empty_count b := by
  rw [next_board_eq h, empty_count_eq_tw, empty_count_eq_tw]
  exact (tw_set_counts b a (player b) h).2.2

theorem maxStep_none (f : Action → Int) (c : Action) :
    maxStep f none c = some (f c, c) := rfl

theorem maxStep_some (f : Action → Int) (c : Action) (bs : Int) (ba : Action) :
    maxStep f (some (bs, ba)) c =
      if f c > bs then some (f c, c) else some (bs, ba) := rfl

theorem minStep_none (f : Action → Int) (c : Action) :
    minStep f none c = some (f c, c) := rfl

theorem minStep_some (f : Action → Int) (c : Action) (bs : Int) (ba : Action) :
    minStep f (some (bs, ba)) c =
      if f c < bs then some (f c, c) else some (bs, ba) := rfl

theorem foldl_maxStep_some (f : Action → Int) (l : List Action) (bs : Int)
    (ba : Action) :
    ∃ s a, l.foldl (maxStep f) (some (bs, ba)) = some (s, a) ∧
      ((s = bs ∧ a = ba) ∨ (a ∈ l ∧ s = f a)) ∧ bs ≤ s ∧ ∀ x ∈ l, f x ≤ s := by
  induction l generalizing bs ba with
  | nil => exact ⟨bs, ba, rfl, .inl ⟨rfl, rfl⟩, le_refl _, by simp⟩
  | cons c t ih =>
    rw [List.foldl_cons, maxStep_some]
    by_cases hc : f c > bs
    · rw [if_pos hc]
      obtain ⟨s, a, h1, h2, h3, h4⟩ := ih (f c) c
      refine ⟨s, a, h1, ?_, le_of_lt (lt_of_lt_of_le hc h3), ?_⟩
      · rcases h2 with ⟨hs, ha⟩ | ⟨ha, hs⟩
        · exact .inr ⟨by simp [ha], by rw [ha, hs]⟩
        · exact .inr ⟨List.mem_cons_of_mem _ ha, hs⟩
      · intro x hx
        rcases List.mem_cons.mp hx with hx | hx
        · rw [hx]; exact h3
        · exact h4 x hx
    · rw [if_neg hc]
      obtain ⟨s, a, h1, h2, h3, h4⟩ := ih bs ba
      refine ⟨s, a, h1, ?_, h3, ?_⟩
      · rcases h2 with ⟨hs, ha⟩ | ⟨ha, hs⟩
        · exact .inl ⟨hs, ha⟩
        · exact .inr ⟨List.mem_cons_of_mem _ ha, hs⟩
      · intro x hx
        rcases List.mem_cons.mp hx with hx | hx
        · rw [hx]; exact le_trans (le_of_not_lt hc) h3
        · exact h4 x hx

theorem foldl_minStep_some (f : Action → Int) (l : List Action) (bs : Int)
    (ba : Action) :
    ∃ s a, l.foldl (minStep f) (some (bs, ba)) = some (s, a) ∧
      ((s = bs ∧ a = ba) ∨ (a ∈ l ∧ s = f a)) ∧ s ≤ bs ∧ ∀ x ∈ l, s ≤ f x := by
  induction l generalizing bs ba with
  | nil => exact ⟨bs, ba, rfl, .inl ⟨rfl, rfl⟩, le_refl _, by simp⟩
  | cons c t ih =>
    rw [List.foldl_cons, minStep_some]
    by_cases hc : f c < bs
    · rw [if_pos hc]
      obtain ⟨s, a, h1, h2, h3, h4⟩ := ih (f c) c
      refine ⟨s, a, h1, ?_, le_of_lt (lt_of_le_of_lt h3 hc), ?_⟩
      · rcases h2 with ⟨hs, ha⟩ | ⟨ha, hs⟩
        · exact .inr ⟨by simp [ha], by rw [ha, hs]⟩
        · exact .inr ⟨List.mem_cons_of_mem _ ha, hs⟩
      · intro x hx
        rcases List.mem_cons.mp hx with hx | hx
        · rw [hx]; exact h3
        · exact h4 x hx
    · rw [if_neg hc]
      obtain ⟨s, a, h1, h2, h3, h4⟩ := ih bs ba
      refine ⟨s, a, h1, ?_, h3, ?_⟩
      · rcases h2 with ⟨hs, ha⟩ | ⟨ha, hs⟩
        · exact .inl ⟨hs, ha⟩
        · exact .inr ⟨List.mem_cons_of_mem _ ha, hs⟩
      · intro x hx
        rcases List.mem_cons.mp hx with hx | hx
        · rw [hx]; exact le_trans h3 (le_of_not_lt hc)
        · exact h4 x hx

theorem foldl_maxStep_ne_nil (f : Action → Int) {l : List Action}
    (hl : l ≠ []) :
    ∃ s a, l.foldl (maxStep f) none = some (s, a) ∧ a ∈ l ∧ s = f a ∧
      ∀ x ∈ l, f x ≤ s := by
  match l, hl with
  | c :: t, _ =>
    rw [List.foldl_cons, maxStep_none]
    obtain ⟨s, a, h1, h2, h3, h4⟩ := foldl_maxStep_some f t (f c) c
    refine ⟨s, a, h1, ?_, ?_, ?_⟩
    · rcases h2 with ⟨-, ha⟩ | ⟨ha, -⟩
      · simp [ha]
      · exact List.mem_cons_of_mem _ ha
    · rcases h2 with ⟨hs, ha⟩ | ⟨-, hs⟩
      · rw [hs, ha]
      · exact hs
    · intro x hx
      rcases List.mem_cons.mp hx with hx | hx
      · rw [hx]; exact h3
      · exact h4 x hx

theorem foldl_minStep_ne_nil (f : Action → Int) {l : List Action}
    (hl : l ≠ []) :
    ∃ s a, l.foldl (minStep f) none = some (s, a) ∧ a ∈ l ∧ s = f a ∧
      ∀ x ∈ l, s ≤ f x := by
  match l, hl with
  | c :: t, _ =>
    rw [List.foldl_cons, minStep_none]
    obtain ⟨s, a, h1, h2, h3, h4⟩ := foldl_minStep_some f t (f c) c
    refine ⟨s, a, h1, ?_, ?_, ?_⟩
    · rcases h2 with ⟨-, ha⟩ | ⟨ha, -⟩
      · simp [ha]
      · exact List.mem_cons_of_mem _ ha
    · rcases h2 with ⟨hs, ha⟩ | ⟨-, hs⟩
      · rw [hs, ha]
      · exact hs
    · intro x hx
      rcases List.mem_cons.mp hx with hx | hx
      · rw [hx]; exact h3
      · exact h4 x hx

theorem foldl_max_spec (s : Int) (l : List Int) :
    l.foldl max s ∈ s :: l ∧ ∀ x ∈ s :: l, x ≤ l.foldl max s := by
  induction l generalizing s with
  | nil => simp
  | cons c t ih =>
    obtain ⟨h1, h2⟩ := ih (max s c)
    rw [List.foldl_cons]
    constructor
    · rcases List.mem_cons.mp h1 with hm | hm
      · rcases max_choice s c with hmc | hmc
        · rw [hm, hmc]; exact List.mem_cons_self _ _
        · rw [hm, hmc]
          exact List.mem_cons_of_mem _ (List.mem_cons_self _ _)
      · exact List.mem_cons_of_mem _ (List.mem_cons_of_mem _ hm)
    · have hmax : max s c ≤ t.foldl max (max s c) :=
        h2 _ (List.mem_cons_self _ _)
      intro x hx
      rcases List.mem_cons.mp hx with hx | hx
      · rw [hx]; exact le_trans (le_max_left s c) hmax
      · rcases List.mem_cons.mp hx with hx | hx
        · rw [hx]; exact le_trans (le_max_right s c) hmax
        · exact h2 x (List.mem_cons_of_mem _ hx)

theorem foldl_min_spec (s : Int) (l : List Int) :
    l.foldl min s ∈ s :: l ∧ ∀ x ∈ s :: l, l.foldl min s ≤ x := by
  induction l generalizing s with
  | nil => simp
  | cons c t ih =>
    obtain ⟨h1, h2⟩ := ih (min s c)
    rw [List.foldl_cons]
    constructor
    · rcases List.mem_cons.mp h1 with hm | hm
      · rcases min_choice s c with hmc | hmc
        · rw [hm, hmc]; exact List.mem_cons_self _ _
        · rw [hm, hmc]
          exact List.mem_cons_of_mem _ (List.mem_cons_self _ _)
      · exact List.mem_cons_of_mem _ (List.mem_cons_of_mem _ hm)
    · have hmin : t.foldl min (min s c) ≤ min s c :=
        h2 _ (List.mem_cons_self _ _)
      intro x hx
      rcases List.mem_cons.mp hx with hx | hx
      · rw [hx]; exact le_trans hmin (min_le_left s c)
      · rcases List.mem_cons.mp hx with hx | hx
        · rw [hx]; exact le_trans hmin (min_le_right s c)
        · exact h2 x (List.mem_cons_of_mem _ hx)

theorem foldl_maxStep_congr {f g : Action → Int} :
    ∀ {l : List Action}, (∀ a ∈ l, f a = g a) →
      ∀ acc, l.foldl (maxStep f) acc = l.foldl (maxStep g) acc := by
  intro l
  induction l with
  | nil => intro _ _; rfl
  | cons c t ih =>
    intro h acc
    rw [List.foldl_cons, List.foldl_cons,
      show maxStep f acc c = maxStep g acc c by
        simp only [maxStep, h c (List.mem_cons_self _ _)]]
    exact ih (fun a ha => h a (List.mem_cons_of_mem _ ha)) _

theorem terminal_of_no_empty {b : Board} (h : empty_count b = 0) :
    terminal b = true := by
  by_contra hf
  have ht : terminal b = false := by
    cases hb : terminal b
    · rfl
    · exact absurd hb hf
  obtain ⟨-, hfull⟩ := terminal_false_iff.mp ht
  obtain ⟨a, ha⟩ := exists_empty_of_not_full hfull
  have := empty_count_pos ha
  omega

theorem max_value_aux_terminal {fu : Nat} {b : Board} (h : terminal b = true) :
    max_value_aux fu b = (utility b, none) := by
  cases fu <;> simp [max_value_aux, h]

theorem min_value_aux_terminal {fu : Nat} {b : Board} (h : terminal b = true) :
    min_value_aux fu b = (utility b, none) := by
  cases fu <;> simp [min_value_aux, h]

theorem gvalMax_aux_terminal {fu : Nat} {b : Board} (h : terminal b = true) :
    gvalMax_aux fu b = utility b := by
  cases fu <;> simp [gvalMax_aux, h]

theorem gvalMin_aux_terminal {fu : Nat} {b : Board} (h : terminal b = true) :
    gvalMin_aux fu b = utility b := by
  cases fu <;> simp [gvalMin_aux, h]

theorem gvalMax_terminal {b : Board} (h : terminal b = true) :
    gvalMax b = utility b := gvalMax_aux_terminal h

theorem gvalMin_terminal {b : Board} (h : terminal b = true) :
    gvalMin b = utility b := gvalMin_aux_terminal h

theorem max_value_aux_step {fu : Nat} {b : Board} (h : terminal b = false) :
    ∃ s a, max_value_aux (fu + 1) b = (s, some a) ∧ a ∈ actions b ∧
      s = (min_value_aux fu (next_board b a)).1 ∧
      ∀ x ∈ actions b, (min_value_aux fu (next_board b x)).1 ≤ s := by
  obtain ⟨s, a, h1, h2, h3, h4⟩ :=
    foldl_maxStep_ne_nil (fun a => (min_value_aux fu (next_board b a)).1)
      (actions_ne_nil h)
  refine ⟨s, a, ?_, h2, h3, h4⟩
  simp only [max_value_aux, h, Bool.false_eq_true, if_false, h1]

theorem min_value_aux_step {fu : Nat} {b : Board} (h : terminal b = false) :
    ∃ s a, min_value_aux (fu + 1) b = (s, some a) ∧ a ∈ actions b ∧
      s = (max_value_aux fu (next_board b a)).1 ∧
      ∀ x ∈ actions b, s ≤ (max_value_aux fu (next_board b x)).1 := by
  obtain ⟨s, a, h1, h2, h3, h4⟩ :=
    foldl_minStep_ne_nil (fun a => (max_value_aux fu (next_board b a)).1)
      (actions_ne_nil h)
  refine ⟨s, a, ?_, h2, h3, h4⟩
  simp only [min_value_aux, h, Bool.false_eq_true, if_false, h1]

theorem gvalMax_aux_step {fu : Nat} {b : Board} (h : terminal b = false) :
    (∃ a ∈ actions b, gvalMax_aux (fu + 1) b = gvalMin_aux fu (next_board b a)) ∧
      ∀ x ∈ actions b, gvalMin_aux fu (next_board b x) ≤ gvalMax_aux (fu + 1) b := by
  obtain ⟨c, t, hct⟩ := List.exists_cons_of_ne_nil (actions_ne_nil h)
  have hunfold : gvalMax_aux (fu + 1) b =
      (t.map (fun a => gvalMin_aux fu (next_board b a))).foldl max
        (gvalMin_aux fu (next_board b c)) := by
    simp only [gvalMax_aux, h, Bool.false_eq_true, if_false, hct, List.map_cons]
  obtain ⟨hmem, hbound⟩ :=
    foldl_max_spec (gvalMin_aux fu (next_board b c))
      (t.map (fun a => gvalMin_aux fu (next_board b a)))
  rw [← hunfold] at hmem hbound
  constructor
  · rcases List.mem_cons.mp hmem with hm | hm
    · exact ⟨c, by simp [hct], hm⟩
    · obtain ⟨a, ha, hval⟩ := List.mem_map.mp hm
      exact ⟨a, by simp [hct, ha], hval.symm⟩
  · intro x hx
    rw [hct] at hx
    rcases List.mem_cons.mp hx with hx | hx
    · exact hbound _ (by simp [hx])
    · exact hbound _ (List.mem_cons_of_mem _ (List.mem_map.mpr ⟨x, hx, rfl⟩))

theorem gvalMin_aux_step {fu : Nat} {b : Board} (h : terminal b = false) :
    (∃ a ∈ actions b, gvalMin_aux (fu + 1) b = gvalMax_aux fu (next_board b a)) ∧
      ∀ x ∈ actions b, gvalMin_aux (fu + 1) b ≤ gvalMax_aux fu (next_board b x) := by
  obtain ⟨c, t, hct⟩ := List.exists_cons_of_ne_nil (actions_ne_nil h)
  have hunfold : gvalMin_aux (fu + 1) b =
      (t.map (fun a => gvalMax_aux fu (next_board b a))).foldl min
        (gvalMax_aux fu (next_board b c)) := by
    simp only [gvalMin_aux, h, Bool.false_eq_true, if_false, hct, List.map_cons]
  obtain ⟨hmem, hbound⟩ :=
    foldl_min_spec (gvalMax_aux fu (next_board b c))
      (t.map (fun a => gvalMax_aux fu (next_board b a)))
  rw [← hunfold] at hmem hbound
  constructor
  · rcases List.mem_cons.mp hmem with hm | hm
    · exact ⟨c, by simp [hct], hm⟩
    · obtain ⟨a, ha, hval⟩ := List.mem_map.mp hm
      exact ⟨a, by simp [hct, ha], hval.symm⟩
  · intro x hx
    rw [hct] at hx
    rcases List.mem_cons.mp hx with hx | hx
    · exact hbound _ (by simp [hx])
    · exact hbound _ (List.mem_cons_of_mem _ (List.mem_map.mpr ⟨x, hx, rfl⟩))

theorem empty_count_next_le {b : Board} {a : Action} {fu : Nat}
    (ha : a ∈ actions b) (hb : empty_count b ≤ fu + 1) :
    empty_count (next_board b a) ≤ fu := by
  have := empty_count_next (mem_actions.mp ha)
  omega

theorem value_eq_gval :
    ∀ fu : Nat, ∀ b : Board, empty_count b ≤ fu →
      (max_value_aux fu b).1 = gvalMax_aux fu b ∧
      (min_value_aux fu b).1 = gvalMin_aux fu b := by
  intro fu
  induction fu with
  | zero =>
    intro b hb
    have ht : terminal b = true := terminal_of_no_empty (by omega)
    rw [max_value_aux_terminal ht, min_value_aux_terminal ht,
      gvalMax_aux_terminal ht, gvalMin_aux_terminal ht]
    exact ⟨rfl, rfl⟩
  | succ fu ih =>
    intro b hb
    cases ht : terminal b
    · constructor
      · obtain ⟨s, a, h1, h2, h3, h4⟩ := @max_value_aux_step fu _ ht
        obtain ⟨⟨a', ha', hga⟩, hbound⟩ := @gvalMax_aux_step fu _ ht
        rw [h1]
        have hva : (min_value_aux fu (next_board b a)).1 =
            gvalMin_aux fu (next_board b a) :=
          (ih _ (empty_count_next_le h2 hb)).2
        have hva' : (min_value_aux fu (next_board b a')).1 =
            gvalMin_aux fu (next_board b a')  :=
          (ih _ (empty_count_next_le ha' hb)).2
        have hle : s ≤ gvalMax_aux (fu + 1) b := by
          rw [h3, hva]; exact hbound a h2
        have hge : gvalMax_aux (fu + 1) b ≤ s := by
          rw [hga, ← hva']; exact h4 a' ha'
        exact le_antisymm hle hge
      · obtain ⟨s, a, h1, h2, h3, h4⟩ := @min_value_aux_step fu _ ht
        obtain ⟨⟨a', ha', hga⟩, hbound⟩ := @gvalMin_aux_step fu _ ht
        rw [h1]
        have hva : (max_value_aux fu (next_board b a)).1 =
            gvalMax_aux fu (next_board b a) :=
          (ih _ (empty_count_next_le h2 hb)).1
        have hva' : (max_value_aux fu (next_board b a')).1 =
            gvalMax_aux fu (next_board b a')  :=
          (ih _ (empty_count_next_le ha' hb)).1
        have hge : gvalMin_aux (fu + 1) b ≤ s := by
          rw [h3, hva]; exact hbound a h2
        have hle : s ≤ gvalMin_aux (fu + 1) b := by
          rw [hga, ← hva']; exact h4 a' ha'
        exact le_antisymm hle hge
    · rw [max_value_aux_terminal ht, min_value_aux_terminal ht,
        gvalMax_aux_terminal ht, gvalMin_aux_terminal ht]
      exact ⟨rfl, rfl⟩

theorem foldl_minStep_congr {f g : Action → Int} :
    ∀ {l : List Action}, (∀ a ∈ l, f a = g a) →
      ∀ acc, l.foldl (minStep f) acc = l.foldl (minStep g) acc := by
  intro l
  induction l with
  | nil => intro _ _; rfl
  | cons c t ih =>
    intro h acc
    rw [List.foldl_cons, List.foldl_cons,
      show minStep f acc c = minStep g acc c by
        simp only [minStep, h c (List.mem_cons_self _ _)]]
    exact ih (fun a ha => h a (List.mem_cons_of_mem _ ha)) _

theorem empty_count_pos_of_nonterminal {b : Board} (ht : terminal b = false) :
    1 ≤ empty_count b := by
  obtain ⟨-, hfull⟩ := terminal_false_iff.mp ht
  obtain ⟨a, ha⟩ := exists_empty_of_not_full hfull
  exact empty_count_pos ha

theorem aux_fuel_eq :
    ∀ fu : Nat, ∀ b : Board, empty_count b ≤ fu →
      max_value_aux fu b = max_value b ∧ min_value_aux fu b = min_value b := by
  intro fu
  induction fu with
  | zero =>
    intro b hb
    have ht : terminal b = true := terminal_of_no_empty (by omega)
    rw [max_value, min_value, max_value_aux_terminal ht,
      min_value_aux_terminal ht, max_value_aux_terminal ht,
      min_value_aux_terminal ht]
    exact ⟨rfl, rfl⟩
  | succ fu ih =>
    intro b hb
    cases ht : terminal b
    · obtain ⟨e, he⟩ : ∃ e, empty_count b = e + 1 :=
        ⟨empty_count b - 1, by have := empty_count_pos_of_nonterminal ht; omega⟩

      have hmin_pt : ∀ x ∈ actions b,
          (fun a => (min_value_aux fu (next_board b a)).1) x =
          (fun a => (min_value_aux e (next_board b a)).1) x := by
        intro x hx
        have hec := empty_count_next (mem_actions.mp hx)
        have hfx : empty_count (next_board b x) ≤ fu := by omega
        have hex : empty_count (next_board b x) = e := by omega
        simp only
        rw [(ih _ hfx).2, min_value, hex]
      have hmax_pt : ∀ x ∈ actions b,
          (fun a => (max_value_aux fu (next_board b a)).1) x =
          (fun a => (max_value_aux e (next_board b a)).1) x := by
        intro x hx
        have hec := empty_count_next (mem_actions.mp hx)
        have hfx : empty_count (next_board b x) ≤ fu := by omega
        have hex : empty_count (next_board b x) = e := by omega
        simp only
        rw [(ih _ hfx).1, max_value, hex]
      constructor
      · rw [max_value, he]
        simp only [max_value_aux, ht, Bool.false_eq_true, if_false]
        rw [foldl_maxStep_congr hmin_pt none]
      · rw [min_value, he]
        simp only [min_value_aux, ht, Bool.false_eq_true, if_false]
        rw [foldl_minStep_congr hmax_pt none]
    · rw [max_value, min_value, max_value_aux_terminal ht,
        min_value_aux_terminal ht, max_value_aux_terminal ht,
        min_value_aux_terminal ht]
      exact ⟨rfl, rfl⟩

theorem gvalMax_children {b : Board} (ht : terminal b = false) :
    (∃ a ∈ actions b, gvalMax b = gvalMin (next_board b a)) ∧
      ∀ x ∈ actions b, gvalMin (next_board b x) ≤ gvalMax b := by
  obtain ⟨e, he⟩ : ∃ e, empty_count b = e + 1 :=
    ⟨empty_count b - 1, by have := empty_count_pos_of_nonterminal ht; omega⟩
  have hstep := @gvalMax_aux_step e _ ht
  have hc : ∀ x ∈ actions b,
      gvalMin_aux e (next_board b x) = gvalMin (next_board b x) := by
    intro x hx
    have hec := empty_count_next (mem_actions.mp hx)
    rw [gvalMin, show empty_count (next_board b x) = e from by omega]
  constructor
  · obtain ⟨a, ha, hval⟩ := hstep.1
    exact ⟨a, ha, by rw [gvalMax, he, hval, hc a ha]⟩
  · intro x hx
    have := hstep.2 x hx
    rw [hc x hx] at this
    rw [gvalMax, he]
    exact this

theorem gvalMin_children {b : Board} (ht : terminal b = false) :
    (∃ a ∈ actions b, gvalMin b = gvalMax (next_board b a)) ∧
      ∀ x ∈ actions b, gvalMin b ≤ gvalMax (next_board b x) := by
  obtain ⟨e, he⟩ : ∃ e, empty_count b = e + 1 :=
    ⟨empty_count b - 1, by have := empty_count_pos_of_nonterminal ht; omega⟩
  have hstep := @gvalMin_aux_step e _ ht
  have hc : ∀ x ∈ actions b,
      gvalMax_aux e (next_board b x) = gvalMax (next_board b x) := by
    intro x hx
    have hec := empty_count_next (mem_actions.mp hx)
    rw [gvalMax, show empty_count (next_board b x) = e from by omega]
  constructor
  · obtain ⟨a, ha, hval⟩ := hstep.1
    exact ⟨a, ha, by rw [gvalMin, he, hval, hc a ha]⟩
  · intro x hx
    have := hstep.2 x hx
    rw [hc x hx] at this
    rw [gvalMin, he]
    exact this

theorem minimax_of_terminal {b : Board} (h : terminal b = true) :
    minimax b = none := by
  simp [minimax, h]

theorem minimax_spec {b : Board} (h : terminal b = false) :
    ∃ a, minimax b = some a ∧ a ∈ actions b ∧
      (player b = .X →
        gvalMin (next_board b a) = gvalMax b ∧
        ∀ x ∈ actions b, gvalMin (next_board b x) ≤ gvalMin (next_board b a)) ∧
      (player b = .O →
        gvalMax (next_board b a) = gvalMin b ∧
        ∀ x ∈ actions b, gvalMax (next_board b a) ≤ gvalMax (next_board b x)) := by
  obtain ⟨e, he⟩ : ∃ e, empty_count b = e + 1 :=
    ⟨empty_count b - 1, by have := empty_count_pos_of_nonterminal h; omega⟩
  have hminaux : ∀ x ∈ actions b,
      (min_value_aux e (next_board b x)).1 = gvalMin (next_board b x) := by
    intro x hx
    have hec := empty_count_next (mem_actions.mp hx)
    have hle : empty_count (next_board b x) ≤ e := by omega
    rw [(value_eq_gval e _ hle).2, gvalMin,
      show empty_count (next_board b x) = e from by omega]
  have hmaxaux : ∀ x ∈ actions b,
      (max_value_aux e (next_board b x)).1 = gvalMax (next_board b x) := by
    intro x hx
    have hec := empty_count_next (mem_actions.mp hx)
    have hle : empty_count (next_board b x) ≤ e := by omega
    rw [(value_eq_gval e _ hle).1, gvalMax,
      show empty_count (next_board b x) = e from by omega]
  by_cases hp : player b = .X
  · have hmm : minimax b = (max_value b).2 := by simp [minimax, h, hp]
    rw [max_value, he] at hmm
    obtain ⟨s, a, h1, h2, h3, h4⟩ := @max_value_aux_step e _ h
    rw [h1] at hmm
    have hs_eq : s = gvalMax b := by
      have hv := (value_eq_gval (e + 1) b (by omega)).1
      rw [h1] at hv
      rw [gvalMax, he]
      exact hv
    refine ⟨a, hmm, h2, fun _ => ⟨?_, ?_⟩, fun hpO => ?_⟩
    · rw [← hminaux a h2, ← h3, hs_eq]
    · intro x hx
      have := h4 x hx
      rw [hminaux x hx] at this
      rw [← hminaux a h2, ← h3]
      exact this
    · rw [hp] at hpO
      exact absurd hpO (by simp)
  · have hpO : player b = .O := by cases hpp : player b <;> simp_all
    have hmm : minimax b = (min_value b).2 := by simp [minimax, h, hp, hpO]
    rw [min_value, he] at hmm
    obtain ⟨s, a, h1, h2, h3, h4⟩ := @min_value_aux_step e _ h
    rw [h1] at hmm
    have hs_eq : s = gvalMin b := by
      have hv := (value_eq_gval (e + 1) b (by omega)).2
      rw [h1] at hv
      rw [gvalMin, he]
      exact hv
    refine ⟨a, hmm, h2, fun hpX => ?_, fun _ => ⟨?_, ?_⟩⟩
    · rw [hpX] at hpO
      exact absurd hpO (by simp)
    · rw [← hmaxaux a h2, ← h3, hs_eq]
    · intro x hx
      have := h4 x hx
      rw [hmaxaux x hx] at this
      rw [← hmaxaux a h2, ← h3]
      exact this

theorem play_out :
    ∀ fu : Nat, ∀ b : Board, empty_count b ≤ fu → Valid b →
      terminal (play_from fu b) = true ∧
      utility (play_from fu b) =
        (if player b = .X then gvalMax b else gvalMin b) := by
  intro fu
  induction fu with
  | zero =>
    intro b hb hv
    have ht : terminal b = true := terminal_of_no_empty (by omega)
    refine ⟨ht, ?_⟩
    rw [show play_from 0 b = b from rfl]
    split_ifs
    · rw [gvalMax_terminal ht]
    · rw [gvalMin_terminal ht]
  | succ fu ih =>
    intro b hb hv
    cases ht : terminal b
    · obtain ⟨a, hmm, hmem, hX, hO⟩ := minimax_spec ht
      have hget := mem_actions.mp hmem
      have hplay : play_from (fu + 1) b = play_from fu (next_board b a) := by
        rw [play_from, hmm]
      have hec := empty_count_next hget
      obtain ⟨hterm, hutil⟩ :=
        ih (next_board b a) (by omega) (valid_next hget hv)
      rw [hplay]
      refine ⟨hterm, ?_⟩
      rw [hutil, player_next_of_valid hget hv]
      by_cases hp : player b = .X
      · rw [if_pos hp, if_pos hp, if_neg (show ¬(Player.O = Player.X) by simp)]
        exact (hX hp).1
      · have hpO : player b = .O := by cases hpp : player b <;> simp_all
        rw [if_neg hp, if_neg hp, if_pos rfl]
        exact (hO hpO).1
    · have hplay : play_from (fu + 1) b = b := by
        rw [play_from, minimax_of_terminal ht]
      rw [hplay]
      refine ⟨ht, ?_⟩
      split_ifs
      · rw [gvalMax_terminal ht]
      · rw [gvalMin_terminal ht]

theorem row_candidate_zero (b : Board) :
    row_candidate b 0 = sameMark b.c00 b.c01 b.c02 := by
  rw [sameMark_eq]; rfl

theorem row_candidate_one (b : Board) :
    row_candidate b 1 = sameMark b.c10 b.c11 b.c12 := by
  rw [sameMark_eq]; rfl

theorem row_candidate_two (b : Board) :
    row_candidate b 2 = sameMark b.c20 b.c21 b.c22 := by
  rw [sameMark_eq]; rfl

theorem column_candidate_zero (b : Board) :
    column_candidate b 0 = sameMark b.c00 b.c10 b.c20 := by
  rw [sameMark_eq]; rfl

theorem column_candidate_one (b : Board) :
    column_candidate b 1 = sameMark b.c01 b.c11 b.c21 := by
  rw [sameMark_eq]; rfl

theorem column_candidate_two (b : Board) :
    column_candidate b 2 = sameMark b.c02 b.c12 b.c22 := by
  rw [sameMark_eq]; rfl

theorem twDiag_eq (c tl br tr bl : Cell) :
    twDiag c tl br tr bl =
      if (c ≠ none ∧ c = tl ∧ c = br) ∨ (c = tr ∧ c = bl) then c else none := by
  revert c tl br tr bl; decide

theorem check_diagonal_wins_eq (b : Board) :
    check_diagonal_wins b = twDiag b.c11 b.c00 b.c22 b.c02 b.c20 := by
  rw [twDiag_eq]; rfl

theorem twWinner_eq (b : Board) : twWinner b = winner b := by
  rw [twWinner, winner, check_row_wins, check_column_wins,
    row_candidate_zero, row_candidate_one, row_candidate_two,
    column_candidate_zero, column_candidate_one, column_candidate_two,
    check_diagonal_wins_eq]
  cases sameMark b.c00 b.c01 b.c02 <;> simp <;>
    cases sameMark b.c10 b.c11 b.c12 <;> simp <;>
      cases sameMark b.c20 b.c21 b.c22 <;> simp <;>
        cases sameMark b.c00 b.c10 b.c20 <;> simp <;>
          cases sameMark b.c01 b.c11 b.c21 <;> simp

theorem twFull_eq (b : Board) : twFull b = full_board b := by
  have hcell : ∀ x : Cell, (!cellEq x none) = decide (x ≠ none) := by decide
  rw [twFull, full_board, allSquares]
  simp [hcell, get00, get01, get02, get10, get11, get12, get20, get21, get22,
    Bool.and_assoc]

theorem twTerminal_eq (b : Board) : twTerminal b = terminal b := by
  rw [twTerminal, terminal, twWinner_eq]
  cases winner b <;> simp [twFull_eq]

theorem twUtilNonneg_eq (b : Board) :
    twUtilNonneg b = true ↔ 0 ≤ utility b := by
  rw [twUtilNonneg, utility, twWinner_eq]
  cases hw : winner b with
  | none => simp
  | some p => cases p <;> simp

theorem twUtilNonpos_eq (b : Board) :
    twUtilNonpos b = true ↔ utility b ≤ 0 := by
  rw [twUtilNonpos, utility, twWinner_eq]
  cases hw : winner b with
  | none => simp
  | some p => cases p <;> simp

theorem twNext_eq {b : Board} {a : Action} (h : b.get a.1 a.2 = none) :
    twNext b a = next_board b a := by
  rw [twNext, next_board_eq h, player_eq_tw]

theorem x_draw_bound :
    ∀ fu : Nat, ∀ (t : Bool) (b : Board), x_draw_aux fu t b = true →
      (t = true → 0 ≤ gvalMax b) ∧ (t = false → 0 ≤ gvalMin b) := by
  intro fu
  induction fu with
  | zero =>
    intro t b hx
    rw [x_draw_aux] at hx
    cases hT : twTerminal b
    · rw [hT] at hx; simp at hx
    · rw [hT] at hx; simp at hx
      have ht : terminal b = true := by rw [← twTerminal_eq, hT]
      have hu := (twUtilNonneg_eq b).mp hx
      exact ⟨fun _ => by rw [gvalMax_terminal ht]; exact hu,
        fun _ => by rw [gvalMin_terminal ht]; exact hu⟩
  | succ fu ih =>
    intro t b hx
    rw [x_draw_aux] at hx
    cases hT : twTerminal b
    · rw [hT] at hx
      simp only [Bool.false_eq_true, if_false] at hx
      have ht : terminal b = false := by rw [← twTerminal_eq, hT]
      cases t
      · simp only [Bool.false_eq_true, if_false] at hx
        rw [List.all_eq_true] at hx
        refine ⟨fun hcon => absurd hcon (by simp), fun _ => ?_⟩
        obtain ⟨⟨a, ha, hval⟩, -⟩ := gvalMin_children ht
        have hch := hx _ (mem_twFree.mpr (mem_actions.mp ha))
        rw [twNext_eq (mem_actions.mp ha)] at hch
        have h0 := (ih true (next_board b a) hch).1 rfl
        rw [hval]; exact h0
      · simp only [if_true] at hx
        rw [List.any_eq_true] at hx
        obtain ⟨a, haf, hch⟩ := hx
        have ha : a ∈ actions b := mem_actions.mpr (mem_twFree.mp haf)
        rw [twNext_eq (mem_actions.mp ha)] at hch
        have h0 := (ih false (next_board b a) hch).2 rfl
        refine ⟨fun _ => ?_, fun hcon => absurd hcon (by simp)⟩
        obtain ⟨-, hub⟩ := gvalMax_children ht
        exact le_trans h0 (hub a ha)
    · rw [hT] at hx; simp at hx
      have ht : terminal b = true := by rw [← twTerminal_eq, hT]
      have hu := (twUtilNonneg_eq b).mp hx
      exact ⟨fun _ => by rw [gvalMax_terminal ht]; exact hu,
        fun _ => by rw [gvalMin_terminal ht]; exact hu⟩

theorem o_draw_bound :
    ∀ fu : Nat, ∀ (t : Bool) (b : Board), o_draw_aux fu t b = true →
      (t = true → gvalMin b ≤ 0) ∧ (t = false → gvalMax b ≤ 0) := by
  intro fu
  induction fu with
  | zero =>
    intro t b hx
    rw [o_draw_aux] at hx
    cases hT : twTerminal b
    · rw [hT] at hx; simp at hx
    · rw [hT] at hx; simp at hx
      have ht : terminal b = true := by rw [← twTerminal_eq, hT]
      have hu := (twUtilNonpos_eq b).mp hx
      exact ⟨fun _ => by rw [gvalMin_terminal ht]; exact hu,
        fun _ => by rw [gvalMax_terminal ht]; exact hu⟩
  | succ fu ih =>
    intro t b hx
    rw [o_draw_aux] at hx
    cases hT : twTerminal b
    · rw [hT] at hx
      simp only [Bool.false_eq_true, if_false] at hx
      have ht : terminal b = false := by rw [← twTerminal_eq, hT]
      cases t
      · simp only [Bool.false_eq_true, if_false] at hx
        rw [List.all_eq_true] at hx
        refine ⟨fun hcon => absurd hcon (by simp), fun _ => ?_⟩
        obtain ⟨⟨a, ha, hval⟩, -⟩ := gvalMax_children ht
        have hch := hx _ (mem_twFree.mpr (mem_actions.mp ha))
        rw [twNext_eq (mem_actions.mp ha)] at hch
        have h0 := (ih true (next_board b a) hch).1 rfl
        rw [hval]; exact h0
      · simp only [if_true] at hx
        rw [List.any_eq_true] at hx
        obtain ⟨a, haf, hch⟩ := hx
        have ha : a ∈ actions b := mem_actions.mpr (mem_twFree.mp haf)
        rw [twNext_eq (mem_actions.mp ha)] at hch
        have h0 := (ih false (next_board b a) hch).2 rfl
        refine ⟨fun _ => ?_, fun hcon => absurd hcon (by simp)⟩
        obtain ⟨-, hlb⟩ := gvalMin_children ht
        exact le_trans (hlb a ha) h0
    · rw [hT] at hx; simp at hx
      have ht : terminal b = true := by rw [← twTerminal_eq, hT]
      have hu := (twUtilNonpos_eq b).mp hx
      exact ⟨fun _ => by rw [gvalMin_terminal ht]; exact hu,
        fun _ => by rw [gvalMax_terminal ht]; exact hu⟩

theorem result_ok_inv {b : Board} {a : Action} {b' : Board}
    (h : result b a = .ok b') :
    b.get a.1 a.2 = none ∧ b' = b.set a.1 a.2 (some (player b)) := by
  rw [result] at h
  split_ifs at h with hc
  rw [Except.ok.injEq] at h
  exact ⟨not_not.mp hc, h.symm⟩

theorem empty_count_le_nine (b : Board) : empty_count b ≤ 9 := by
  have hone : ∀ x : Cell, eCount1 x ≤ 1 := by decide
  rw [empty_count_eq_tw, twECount]
  have h0 := hone b.c00
  have h1 := hone b.c01
  have h2 := hone b.c02
  have h3 := hone b.c10
  have h4 := hone b.c11
  have h5 := hone b.c12
  have h6 := hone b.c20
  have h7 := hone b.c21
  have h8 := hone b.c22
  omega

theorem row_candidate_eq_some {b : Board} {i : Fin 3} {p : Player} :
    row_candidate b i = some p ↔
      b.get i 0 = some p ∧ b.get i 1 = some p ∧ b.get i 2 = some p := by
  simp only [row_candidate]
  split_ifs with hc
  · obtain ⟨hne, h1, h2⟩ := hc
    constructor
    · intro he
      exact ⟨he, by rw [← h1]; exact he, by rw [← h2]; exact he⟩
    · rintro ⟨h0, -, -⟩
      exact h0
  · constructor
    · intro he; exact absurd he (by simp)
    · rintro ⟨h0, h1, h2⟩
      exact absurd ⟨by rw [h0]; simp, by rw [h0, h1], by rw [h0, h2]⟩ hc

theorem column_candidate_eq_some {b : Board} {j : Fin 3} {p : Player} :
    column_candidate b j = some p ↔
      b.get 0 j = some p ∧ b.get 1 j = some p ∧ b.get 2 j = some p := by
  simp only [column_candidate]
  split_ifs with hc
  · obtain ⟨hne, h1, h2⟩ := hc
    constructor
    · intro he
      exact ⟨he, by rw [← h1]; exact he, by rw [← h2]; exact he⟩
    · rintro ⟨h0, -, -⟩
      exact h0
  · constructor
    · intro he; exact absurd he (by simp)
    · rintro ⟨h0, h1, h2⟩
      exact absurd ⟨by rw [h0]; simp, by rw [h0, h1], by rw [h0, h2]⟩ hc

theorem check_diagonal_wins_eq_some {b : Board} {p : Player} :
    check_diagonal_wins b = some p ↔
      (b.get 1 1 = some p ∧ b.get 0 0 = some p ∧ b.get 2 2 = some p) ∨
      (b.get 1 1 = some p ∧ b.get 0 2 = some p ∧ b.get 2 0 = some p) := by
  simp only [check_diagonal_wins]
  split_ifs with hc
  · constructor
    · intro he
      rcases hc with ⟨-, h1, h2⟩ | ⟨h1, h2⟩
      · exact .inl ⟨he, by rw [← h1]; exact he, by rw [← h2]; exact he⟩
      · exact .inr ⟨he, by rw [← h1]; exact he, by rw [← h2]; exact he⟩
    · rintro (⟨h0, -, -⟩ | ⟨h0, -, -⟩) <;> exact h0
  · constructor
    · intro he; exact absurd he (by simp)
    · rintro (⟨h0, h1, h2⟩ | ⟨h0, h1, h2⟩)
      · exact absurd
          (Or.inl ⟨by rw [h0]; simp, by rw [h0, h1], by rw [h0, h2]⟩) hc
      · exact absurd (Or.inr ⟨by rw [h0, h1], by rw [h0, h2]⟩) hc

theorem check_row_wins_cases {b : Board} {p : Player}
    (h : check_row_wins b = some p) :
    ∃ i : Fin 3, row_candidate b i = some p := by
  rw [check_row_wins] at h
  cases h0 : row_candidate b 0 with
  | some w => rw [h0] at h; simp at h; exact ⟨0, by rw [h0, h]⟩
  | none =>
    rw [h0] at h
    cases h1 : row_candidate b 1 with
    | some w => rw [h1] at h; simp at h; exact ⟨1, by rw [h1, h]⟩
    | none => rw [h1] at h; exact ⟨2, h⟩

theorem check_column_wins_cases {b : Board} {p : Player}
    (h : check_column_wins b = some p) :
    ∃ j : Fin 3, column_candidate b j = some p := by
  rw [check_column_wins] at h
  cases h0 : column_candidate b 0 with
  | some w => rw [h0] at h; simp at h; exact ⟨0, by rw [h0, h]⟩
  | none =>
    rw [h0] at h
    cases h1 : column_candidate b 1 with
    | some w => rw [h1] at h; simp at h; exact ⟨1, by rw [h1, h]⟩
    | none => rw [h1] at h; exact ⟨2, h⟩

theorem check_row_wins_none {b : Board} (h : check_row_wins b = none) :
    ∀ i : Fin 3, row_candidate b i = none := by
  rw [check_row_wins] at h
  cases h0 : row_candidate b 0 with
  | some w => rw [h0] at h; exact absurd h (by simp)
  | none =>
    rw [h0] at h
    cases h1 : row_candidate b 1 with
    | some w => rw [h1] at h; exact absurd h (by simp)
    | none =>
      rw [h1] at h
      intro i
      fin_cases i
      · exact h0
      · exact h1
      · exact h

theorem check_column_wins_none {b : Board} (h : check_column_wins b = none) :
    ∀ j : Fin 3, column_candidate b j = none := by
  rw [check_column_wins] at h
  cases h0 : column_candidate b 0 with
  | some w => rw [h0] at h; exact absurd h (by simp)
  | none =>
    rw [h0] at h
    cases h1 : column_candidate b 1 with
    | some w => rw [h1] at h; exact absurd h (by simp)
    | none =>
      rw [h1] at h
      intro j
      fin_cases j
      · exact h0
      · exact h1
      · exact h

theorem winner_cases {b : Board} {p : Player} (h : winner b = some p) :
    (∃ i, row_candidate b i = some p) ∨
    (∃ j, column_candidate b j = some p) ∨
    check_diagonal_wins b = some p := by
  rw [winner] at h
  cases hr : check_row_wins b with
  | some w =>
    rw [hr] at h; simp at h
    exact .inl (check_row_wins_cases (by rw [hr, h]))
  | none =>
    rw [hr] at h
    cases hcn : check_column_wins b with
    | some w =>
      rw [hcn] at h; simp at h
      exact .inr (.inl (check_column_wins_cases (by rw [hcn, h])))
    | none =>
      rw [hcn] at h
      exact .inr (.inr h)

theorem winner_none_checks {b : Board} (h : winner b = none) :
    check_row_wins b = none ∧ check_column_wins b = none ∧
      check_diagonal_wins b = none := by
  rw [winner] at h
  cases hr : check_row_wins b with
  | some w => rw [hr] at h; exact absurd h (by simp)
  | none =>
    rw [hr] at h
    cases hcn : check_column_wins b with
    | some w => rw [hcn] at h; exact absurd h (by simp)
    | none => rw [hcn] at h; exact ⟨rfl, rfl, h⟩

theorem winner_some_hasLine {b : Board} {p : Player}
    (h : winner b = some p) : hasLine b p := by
  rcases winner_cases h with ⟨i, hi⟩ | ⟨j, hj⟩ | hd
  · exact .inl ⟨i, row_candidate_eq_some.mp hi⟩
  · exact .inr (.inl ⟨j, column_candidate_eq_some.mp hj⟩)
  · rcases check_diagonal_wins_eq_some.mp hd with ⟨h1, h2, h3⟩ | ⟨h1, h2, h3⟩
    · exact .inr (.inr (.inl ⟨h2, h1, h3⟩))
    · exact .inr (.inr (.inr ⟨h2, h1, h3⟩))

theorem winner_none_noLine {b : Board} (h : winner b = none) :
    ∀ p, ¬ hasLine b p := by
  obtain ⟨hr, hcn, hd⟩ := winner_none_checks h
  intro p hl
  rcases hl with ⟨i, h0, h1, h2⟩ | ⟨j, h0, h1, h2⟩ | ⟨h0, h1, h2⟩ | ⟨h0, h1, h2⟩
  · have hrc : row_candidate b i = some p :=
      row_candidate_eq_some.mpr ⟨h0, h1, h2⟩
    rw [check_row_wins_none hr i] at hrc
    exact absurd hrc (by simp)
  · have hcc : column_candidate b j = some p :=
      column_candidate_eq_some.mpr ⟨h0, h1, h2⟩
    rw [check_column_wins_none hcn j] at hcc
    exact absurd hcc (by simp)
  · have hdc : check_diagonal_wins b = some p :=
      check_diagonal_wins_eq_some.mpr (.inl ⟨h1, h0, h2⟩)
    rw [hd] at hdc
    exact absurd hdc (by simp)
  · have hdc : check_diagonal_wins b = some p :=
      check_diagonal_wins_eq_some.mpr (.inr ⟨h1, h0, h2⟩)
    rw [hd] at hdc
    exact absurd hdc (by simp)

/-!
## Claim theorems
-/

/-- C1: on a terminal board `minimax` returns nothing; on a non-terminal
board it returns a legal move that is optimal — when it is `A`'s (`X`'s)
turn, a move whose guaranteed utility (with `B` replying optimally, i.e.
`gvalMin` of the successor) is greatest among all legal moves and equals
the value `A` can force; when it is `B`'s (`O`'s) turn, symmetrically a
move minimizing the guaranteed utility. -/
theorem minimax_optimal :
    ∀ b : Board,
      (terminal b = true → minimax b = none) ∧
      (terminal b = false →
        ∃ a, minimax b = some a ∧ a ∈ actions b ∧
          (player b = .X →
            gvalMin (next_board b a) = gvalMax b ∧
            ∀ x ∈ actions b,
              gvalMin (next_board b x) ≤ gvalMin (next_board b a)) ∧
          (player b = .O →
            gvalMax (next_board b a) = gvalMin b ∧
            ∀ x ∈ actions b,
              gvalMax (next_board b a) ≤ gvalMax (next_board b x))) :=
  fun _ => ⟨minimax_of_terminal, minimax_spec⟩

/-- Witness for C1 at two concrete boards: a terminal board (row of `X`)
and the one-empty-cell board. -/
theorem minimax_optimal_witness :
    minimax rowWinBoard = none ∧
    (∃ a, minimax lastMoveBoard = some a ∧ a ∈ actions lastMoveBoard ∧
      (player lastMoveBoard = .X →
        gvalMin (next_board lastMoveBoard a) = gvalMax lastMoveBoard ∧
        ∀ x ∈ actions lastMoveBoard,
          gvalMin (next_board lastMoveBoard x) ≤
            gvalMin (next_board lastMoveBoard a)) ∧
      (player lastMoveBoard = .O →
        gvalMax (next_board lastMoveBoard a) = gvalMin lastMoveBoard ∧
        ∀ x ∈ actions lastMoveBoard,
          gvalMax (next_board lastMoveBoard a) ≤
            gvalMax (next_board lastMoveBoard x))) :=
  ⟨(minimax_optimal rowWinBoard).1 (by decide),
   (minimax_optimal lastMoveBoard).2 (by decide)⟩

/-- C2 counterexample: on the (invariant-violating) board whose top row is
all `A` and middle row all `B`, a complete line of `B` exists and yet
`winner` does not return `B` — the claimed equivalence fails as stated for
this board. -/
theorem winner_iff_counterexample :
    hasLine bothLinesBoard Player.O ∧
      winner bothLinesBoard ≠ some Player.O :=
  ⟨by decide, by decide⟩

/-- C2 (amended): for every board on which `A` and `B` do not both own a
complete line, `winner` returns mark `m` exactly when `m` owns a complete
line — a full row, a full column, or one of the two diagonals (centre cell
non-empty included); and on every board whatsoever, `winner` returns
nothing exactly when no complete line exists. -/
theorem winner_line_characterization :
    ∀ b : Board,
      (¬(hasLine b Player.X ∧ hasLine b Player.O) →
        ∀ m, (winner b = some m ↔ hasLine b m)) ∧
      (winner b = none ↔ ∀ p, ¬ hasLine b p) := by
  intro b
  constructor
  · intro hnb m
    constructor
    · exact winner_some_hasLine
    · intro hm
      cases hw : winner b with
      | none => exact absurd hm (winner_none_noLine hw m)
      | some w =>
        have hw' := winner_some_hasLine hw
        by_cases hwm : w = m
        · rw [hwm]
        · exfalso
          apply hnb
          cases m <;> cases w <;> simp_all
  · constructor
    · exact fun hw => winner_none_noLine hw
    · intro hnl
      cases hw : winner b with
      | none => rfl
      | some p => exact absurd (winner_some_hasLine hw) (hnl p)

/-- Witness for C2 (amended) at concrete boards: a row win for `A` and a
line-free board. -/
theorem winner_line_characterization_witness :
    winner rowWinBoard = some Player.X ∧ winner oneMarkBoard = none :=
  ⟨((winner_line_characterization rowWinBoard).1 (by decide) Player.X).mpr
      (by decide),
   (winner_line_characterization oneMarkBoard).2.mpr (by decide)⟩

set_option maxHeartbeats 4000000 in
/-- C3: on `[[A,A,Empty],[B,B,Empty],[Empty,Empty,Empty]]` with `A` to
move, `minimax` returns `(0, 2)`; applying that move yields a terminal
board of utility `1`; and no other legal move guarantees utility `1`. -/
theorem near_win_scenario :
    minimax nearWinBoard = some (0, 2) ∧
    result nearWinBoard (0, 2) = Except.ok nearWinDone ∧
    terminal nearWinDone = true ∧ utility nearWinDone = 1 ∧
    ∀ x ∈ actions nearWinBoard, x ≠ (0, 2) →
      gvalMin (next_board nearWinBoard x) ≠ 1 := by
  refine ⟨by decide!, rfl, by decide, by decide, by decide!⟩

/-- Witness for C3's universally quantified part at the move `(1, 2)`. -/
theorem near_win_scenario_witness :
    gvalMin (next_board nearWinBoard (1, 2)) ≠ 1 :=
  near_win_scenario.2.2.2.2 (1, 2) (by decide) (by decide)

set_option maxHeartbeats 8000000 in
/-- C4: playing `minimax` moves for both players from the empty board
reaches a terminal board whose utility is `0` — perfect play draws. -/
theorem perfect_play_draw :
    terminal (play_from 9 initial_state) = true ∧
    utility (play_from 9 initial_state) = 0 := by
  obtain ⟨ht, hu⟩ := play_out 9 initial_state (by decide) (Or.inl (by decide))
  refine ⟨ht, ?_⟩
  rw [hu, if_pos (show player initial_state = .X by decide)]
  have hx : x_draw_aux 9 true initial_state = true := by decide!
  have ho : o_draw_aux 9 false initial_state = true := by decide!
  have h1 := (x_draw_bound 9 true initial_state hx).1 rfl
  have h2 := (o_draw_bound 9 false initial_state ho).2 rfl
  omega

/-- C5: `result` fails with the `Invalid action` error exactly when the
targeted cell is occupied, and returns normally when the cell is empty. -/
theorem result_error_iff :
    ∀ (b : Board) (a : Action),
      (result b a = Except.error "Invalid action" ↔ b.get a.1 a.2 ≠ none) ∧
      (b.get a.1 a.2 = none → ∃ b', result b a = Except.ok b') := by
  intro b a
  constructor
  · constructor
    · intro he hnone
      rw [result_eq_ok hnone] at he
      exact absurd he (by simp)
    · exact result_eq_error
  · intro hnone
    exact ⟨_, result_eq_ok hnone⟩

/-- Witness for C5: an occupied target errs, an empty target succeeds. -/
theorem result_error_iff_witness :
    result rowWinBoard (0, 0) = Except.error "Invalid action" ∧
    ∃ b', result rowWinBoard (1, 0) = Except.ok b' :=
  ⟨(result_error_iff rowWinBoard (0, 0)).1.mpr (by decide),
   (result_error_iff rowWinBoard (1, 0)).2 (by decide)⟩

/-- C6: on an empty target cell `result` returns a new board holding the
mover's mark there and agreeing with the input board everywhere else; the
input board itself is an immutable value (the source deep-copies before
writing), so it is unchanged by the call. -/
theorem result_frame :
    ∀ (b : Board) (a : Action), b.get a.1 a.2 = none →
      ∃ b', result b a = Except.ok b' ∧
        b'.get a.1 a.2 = some (player b) ∧
        ∀ i j : Fin 3, ¬(i = a.1 ∧ j = a.2) → b'.get i j = b.get i j := by
  intro b a h
  refine ⟨b.set a.1 a.2 (some (player b)), result_eq_ok h,
    get_set_self b a.1 a.2 _, ?_⟩
  intro i j hij
  exact get_set_ne b a.1 a.2 i j _ hij

/-- Witness for C6 at the centre-mark board. -/
theorem result_frame_witness :
    ∃ b', result oneMarkBoard (0, 0) = Except.ok b' ∧
      b'.get 0 0 = some (player oneMarkBoard) ∧
      ∀ i j : Fin 3, ¬(i = 0 ∧ j = 0) → b'.get i j = oneMarkBoard.get i j :=
  result_frame oneMarkBoard (0, 0) (by decide)

/-- C7: on every terminal board `utility` is `1` when `A` won, `-1` when
`B` won, `0` otherwise, and always lies in `{-1, 0, 1}`. -/
theorem utility_terminal_cases :
    ∀ b : Board, terminal b = true →
      (winner b = some Player.X → utility b = 1) ∧
      (winner b = some Player.O → utility b = -1) ∧
      (winner b = none → utility b = 0) ∧
      (utility b = -1 ∨ utility b = 0 ∨ utility b = 1) := by
  intro b _
  cases hw : winner b with
  | none =>
    exact ⟨fun h => absurd h (by simp), fun h => absurd h (by simp),
      fun _ => by simp [utility, hw], by simp [utility, hw]⟩
  | some p =>
    cases p with
    | X =>
      exact ⟨fun _ => by simp [utility, hw], fun h => absurd h (by simp),
        fun h => absurd h (by simp), by simp [utility, hw]⟩
    | O =>
      exact ⟨fun h => absurd h (by simp), fun _ => by simp [utility, hw],
        fun h => absurd h (by simp), by simp [utility, hw]⟩

/-- Witness for C7 at the `A` row win. -/
theorem utility_terminal_cases_witness :
    utility rowWinBoard = 1 ∧
    (utility rowWinBoard = -1 ∨ utility rowWinBoard = 0 ∨
      utility rowWinBoard = 1) :=
  ⟨(utility_terminal_cases rowWinBoard (by decide)).1 (by decide),
   (utility_terminal_cases rowWinBoard (by decide)).2.2.2⟩

/-- C8: the search recursion terminates — every successful `result` call
strictly decreases the number of empty cells, that number never exceeds
`9`, and any recursion budget of at least the number of empty cells gives
`max_value`/`min_value` their fixed answers (so the recursion bottoms out
within nine levels). -/
theorem search_terminates :
    (∀ (b : Board) (a : Action) (b' : Board),
        result b a = Except.ok b' → empty_count b' < empty_count b) ∧
    (∀ b : Board, empty_count b ≤ 9) ∧
    (∀ (fu : Nat) (b : Board), empty_count b ≤ fu →
        max_value_aux fu b = max_value b ∧ min_value_aux fu b = min_value b) := by
  refine ⟨?_, empty_count_le_nine, aux_fuel_eq⟩
  intro b a b' hok
  obtain ⟨hget, hb'⟩ := result_ok_inv hok
  have := empty_count_next hget
  rw [hb', ← next_board_eq hget]
  omega

/-- Witness for C8: a concrete move decreases the empty count, and budget
`9` suffices on a concrete board. -/
theorem search_terminates_witness :
    empty_count nearWinDone < empty_count nearWinBoard ∧
    empty_count initial_state ≤ 9 ∧
    max_value_aux 9 nearWinDone = max_value nearWinDone :=
  ⟨search_terminates.1 nearWinBoard (0, 2) nearWinDone rfl,
   search_terminates.2.1 initial_state,
   (search_terminates.2.2 9 nearWinDone (by decide)).1⟩

/-- C9: every board reachable from the initial board through successful
`result` calls has either equally many `A` and `B` marks or exactly one
more `A` mark. -/
theorem reachable_count_invariant :
    ∀ b : Board, Reachable b →
      x_moves b = o_moves b ∨ x_moves b = o_moves b + 1 := by
  intro b h
  induction h with
  | init => left; rfl
  | step hr hok ih =>
    obtain ⟨hget, hb'⟩ := result_ok_inv hok
    have hv := valid_next hget ih
    rw [hb', ← next_board_eq hget]
    exact hv

/-- Witness for C9 at the board reached by one centre move. -/
theorem reachable_count_invariant_witness :
    x_moves oneMarkBoard = o_moves oneMarkBoard ∨
      x_moves oneMarkBoard = o_moves oneMarkBoard + 1 :=
  reachable_count_invariant oneMarkBoard
    (Reachable.step Reachable.init
      (show result initial_state (1, 1) = Except.ok oneMarkBoard from rfl))

/-- C10: `utility` is total — on every board, terminal or not, it returns
`0` whenever `winner` returns nothing, with no terminality check and no
possibility of error. -/
theorem utility_total :
    ∀ b : Board, winner b = none → utility b = 0 := by
  intro b hw
  simp [utility, hw]

/-- Witness for C10 at a non-terminal, in-progress board. -/
theorem utility_total_witness :
    terminal oneMarkBoard = false ∧ utility oneMarkBoard = 0 :=
  ⟨by decide, utility_total oneMarkBoard (by decide)⟩

end TicTacToe
